import Mathlib

/-!
Verification of the document-chunking and retrieval-filtering core of the
study_backend repository (`app/study_agent/chunk_strategy.py` and
`app/study_agent/rag_utils.py`), via a shallow embedding over `List Char`.

Strings are modelled as `List Char`; Python `str.strip()` / `str.split` /
`str.lower()` / substring tests are modelled by executable functions below.
All definitions are structurally recursive so that concrete inputs can be
evaluated by `decide`.
-/

namespace StudyBackend

/-- Python whitespace characters (the ASCII set stripped by `str.strip()`). -/
def isSpace (c : Char) : Bool :=
  c = ' ' || c = '\t' || c = '\n' || c = '\r' || c = '\x0b' || c = '\x0c'

/-- Sentence-ending punctuation used by `chunk_by_sentences` (`[.!?]`). -/
def isPunct (c : Char) : Bool :=
  c = '.' || c = '!' || c = '?'

/-- Python `str.lower()` (ASCII model). -/
def lowerStr (s : List Char) : List Char := s.map Char.toLower

/-- `sep.join(parts)` — join a list of strings with a separator string. -/
def joinSep (sep : List Char) : List (List Char) → List Char
  | [] => []
  | [x] => x
  | x :: y :: rest => x ++ sep ++ joinSep sep (y :: rest)

/-- Worker for `splitChar`: accumulates the current segment (reversed). -/
def splitCharAux (ch : Char) : List Char → List Char → List (List Char)
  | [], acc => [acc.reverse]
  | c :: rest, acc =>
    if c = ch then acc.reverse :: splitCharAux ch rest []
    else splitCharAux ch rest (c :: acc)

/-- Python `s.split(ch)` for a single-character separator: returns all
segments between occurrences of `ch`, including empty ones. -/
def splitChar (ch : Char) (s : List Char) : List (List Char) :=
  splitCharAux ch s []

/-- Worker for `splitSep2`: left-to-right scan for the two-character
separator `[a, b]`, accumulating the current segment (reversed). -/
def splitSepAux (a b : Char) : List Char → List Char → List (List Char)
  | [], acc => [acc.reverse]
  | [c], acc => [(c :: acc).reverse]
  | c :: d :: rest, acc =>
    if c = a ∧ d = b then acc.reverse :: splitSepAux a b rest []
    else splitSepAux a b (d :: rest) (c :: acc)

/-- Python `s.split(sep)` for the two-character separator `[a, b]`
(non-overlapping, left-to-right). -/
def splitSep2 (a b : Char) (s : List Char) : List (List Char) :=
  splitSepAux a b s []

mutual
/-- Worker for `splitRuns`: accumulating a fragment (reversed). -/
def splitRunsAux (p : Char → Bool) : List Char → List Char → List (List Char)
  | [], acc => [acc.reverse]
  | c :: rest, acc =>
    if p c then acc.reverse :: skipRun p rest
    else splitRunsAux p rest (c :: acc)

/-- Worker for `splitRuns`: inside a run of separator characters. -/
def skipRun (p : Char → Bool) : List Char → List (List Char)
  | [] => [[]]
  | c :: rest =>
    if p c then skipRun p rest
    else splitRunsAux p rest [c]
end

/-- Python `re.split(r'[.!?]+', s)`-style splitting: fragments separated by
maximal runs of characters satisfying `p`. -/
def splitRuns (p : Char → Bool) (s : List Char) : List (List Char) :=
  splitRunsAux p s []

/-- Python `str.lstrip()`. -/
def lstrip (s : List Char) : List Char := s.dropWhile isSpace

/-- Python `str.rstrip()`. -/
def rstrip (s : List Char) : List Char := (s.reverse.dropWhile isSpace).reverse

/-- Python `str.strip()`. -/
def strip (s : List Char) : List Char := lstrip (rstrip s)

/-- Worker for `tokens`: accumulates the current word (reversed). -/
def tokensAux : List Char → List Char → List (List Char)
  | [], acc => if acc = [] then [] else [acc.reverse]
  | c :: rest, acc =>
    if isSpace c then
      if acc = [] then tokensAux rest [] else acc.reverse :: tokensAux rest []
    else tokensAux rest (c :: acc)

/-- Python `s.split()` with no argument: the whitespace-delimited words of
`s`, in order, with no empty entries. -/
def tokens (s : List Char) : List (List Char) := tokensAux s []

/-- The whitespace-delimited words appearing across a list of chunks. -/
def tokensOfList (l : List (List Char)) : List (List Char) := l.flatMap tokens

/-- `pre` is a leading segment of `s` (Boolean prefix test). -/
def leadsWith : List Char → List Char → Bool
  | [], _ => true
  | _ :: _, [] => false
  | a :: pre, b :: s => a = b && leadsWith pre s

/-- Python `needle in hay` substring test. -/
def substrOf (needle : List Char) : List Char → Bool
  | [] => needle = []
  | c :: rest => leadsWith needle (c :: rest) || substrOf needle rest

/-- Greedy grouping of a list into consecutive buckets of `n` elements
(the last bucket may be smaller).  This is the specification-side notion of
"group consecutive items into buckets of at most `n`". -/
def chunkList (n : Nat) : List α → List (List α)
  | [] => []
  | x :: xs => (x :: xs).take n :: chunkList n (xs.drop (n - 1))
termination_by l => l.length
decreasing_by
  simp only [List.length_drop, List.length_cons]
  omega

/-! ## `DocumentChunker.chunk_by_headings` -/

/-- The heading test of `chunk_by_headings`:
`line.strip().startswith('#') and len(line.strip()) > 1`. -/
def headingLine (line : List Char) : Bool :=
  match strip line with
  | [] => false
  | c :: rest => c = '#' && rest ≠ []

/-- Closing the in-progress accumulation: join with newlines, strip, and
append only when non-empty (`if current_chunk: ... if chunk_content:`). -/
def flushHead (chunks : List (List Char)) (cur : List (List Char)) :
    List (List Char) :=
  if cur = [] then chunks
  else if strip (joinSep ['\n'] cur) = [] then chunks
  else chunks ++ [strip (joinSep ['\n'] cur)]

/-- The line loop of `chunk_by_headings`, including the final flush. -/
def headFold (chunks : List (List Char)) (cur : List (List Char)) :
    List (List Char) → List (List Char)
  | [] => flushHead chunks cur
  | l :: ls =>
    if headingLine l then headFold (flushHead chunks cur) [l] ls
    else headFold chunks (cur ++ [l]) ls

/-- `DocumentChunker.chunk_by_headings`. -/
def chunk_by_headings (doc : List Char) : List (List Char) :=
  if doc = [] then [[]]
  else if strip doc = [] then [doc]
  else
    let cs := headFold [] [] (splitChar '\n' doc)
    if cs = [] then [strip doc] else cs

/-! ## `DocumentChunker._split_large_chunk` -/

/-- The word loop of `_split_large_chunk` (last-resort split on spaces,
`+1` for the joining space); returns the emitted sub-chunks and the final
word buffer `temp_chunk`. -/
def wordFold (maxSize : Nat) (subs : List (List Char)) (temp : List Char) :
    List (List Char) → List (List Char) × List Char
  | [] => (subs, temp)
  | w :: ws =>
    if maxSize < temp.length + w.length + 1 then
      if temp = [] then wordFold maxSize (subs ++ [w]) [] ws
      else wordFold maxSize (subs ++ [strip temp]) w ws
    else wordFold maxSize subs (if temp = [] then w else temp ++ [' '] ++ w) ws

/-- The paragraph loop of `_split_large_chunk` (`+2` for the joining blank
line, trailing-overlap seeding on flush, word-level fallback for a single
oversized paragraph), including the final flush. -/
def paraFold (maxSize overlap : Nat) (subs : List (List Char))
    (cur : List Char) : List (List Char) → List (List Char)
  | [] => if cur = [] then subs else subs ++ [strip cur]
  | p :: ps =>
    if maxSize < cur.length + p.length + 2 then
      if cur = [] then
        if maxSize < p.length then
          let r := wordFold maxSize subs [] (splitChar ' ' p)
          paraFold maxSize overlap r.1 r.2 ps
        else paraFold maxSize overlap subs p ps
      else
        paraFold maxSize overlap (subs ++ [strip cur])
          (if 0 < overlap ∧ overlap < cur.length then
            cur.drop (cur.length - overlap) ++ ['\n', '\n'] ++ p
          else p) ps
    else
      paraFold maxSize overlap subs
        (if cur = [] then p else cur ++ ['\n', '\n'] ++ p) ps

/-- The paragraph selection of `_split_large_chunk`: split on blank lines;
if that yields a single piece, split on single newlines instead. -/
def parasOf (chunk : List Char) : List (List Char) :=
  let ps := splitSep2 '\n' '\n' chunk
  if ps.length = 1 then splitChar '\n' chunk else ps

/-- `DocumentChunker._split_large_chunk`. -/
def split_large_chunk (chunk : List Char) (maxSize overlap : Nat) :
    List (List Char) :=
  if chunk.length ≤ maxSize then [chunk]
  else paraFold maxSize overlap [] [] (parasOf chunk)

/-- `DocumentChunker.chunk_by_headings_advanced` (the `split_with_limit`
of the specification). -/
def chunk_by_headings_advanced (doc : List Char) (maxSize overlap : Nat) :
    List (List Char) :=
  if doc = [] then [[]]
  else if strip doc = [] then [doc]
  else
    (chunk_by_headings doc).flatMap fun c =>
      if c.length ≤ maxSize then [c] else split_large_chunk c maxSize overlap

/-! ## `DocumentChunker.chunk_by_sentences` -/

/-- Rendering of one sentence bucket: `'. '.join(bucket) + '.'`. -/
def renderBucket (b : List (List Char)) : List Char :=
  joinSep ['.', ' '] b ++ ['.']

/-- The nonempty stripped fragments obtained by splitting on runs of
`.`, `!`, `?`. -/
def sentencesOf (doc : List Char) : List (List Char) :=
  ((splitRuns isPunct doc).map strip).filter (· ≠ [])

/-- The sentence loop of `chunk_by_sentences` (append, flush when the
bucket reaches `max_sentences`), including the final flush. -/
def sentFold (maxS : Nat) (chunks : List (List Char))
    (cur : List (List Char)) : List (List Char) → List (List Char)
  | [] => if cur = [] then chunks else chunks ++ [renderBucket cur]
  | s :: ss =>
    if maxS ≤ (cur ++ [s]).length then
      sentFold maxS (chunks ++ [renderBucket (cur ++ [s])]) [] ss
    else sentFold maxS chunks (cur ++ [s]) ss

/-- `DocumentChunker.chunk_by_sentences`. -/
def chunk_by_sentences (doc : List Char) (maxS : Nat) : List (List Char) :=
  if doc = [] then [[]]
  else if strip doc = [] then [doc]
  else sentFold maxS [] [] (sentencesOf doc)

/-! ## `DocumentChunker.chunk_by_paragraphs` -/

/-- The nonempty stripped pieces obtained by splitting on blank lines. -/
def paragraphsOf (doc : List Char) : List (List Char) :=
  ((splitSep2 '\n' '\n' doc).map strip).filter (· ≠ [])

/-- The paragraph loop of `chunk_by_paragraphs` (append, flush when the
bucket reaches `max_paragraphs`), including the final flush. -/
def parFold (maxP : Nat) (chunks : List (List Char))
    (cur : List (List Char)) : List (List Char) → List (List Char)
  | [] => if cur = [] then chunks else chunks ++ [joinSep ['\n', '\n'] cur]
  | p :: ps =>
    if maxP ≤ (cur ++ [p]).length then
      parFold maxP (chunks ++ [joinSep ['\n', '\n'] (cur ++ [p])]) [] ps
    else parFold maxP chunks (cur ++ [p]) ps

/-- `DocumentChunker.chunk_by_paragraphs`. -/
def chunk_by_paragraphs (doc : List Char) (maxP : Nat) : List (List Char) :=
  if doc = [] then [[]]
  else if strip doc = [] then [doc]
  else
    let paras := paragraphsOf doc
    if paras = [] then [doc] else parFold maxP [] [] paras

/-- `DocumentChunker.chunk_educational_content`: strategy dispatch
(unknown strategies fall back to `headings`). -/
def chunk_educational_content (content : List Char) (strategy : List Char)
    (maxChunkSize overlapSize maxSentences maxParagraphs : Nat) :
    List (List Char) :=
  if strategy = "advanced".data then
    chunk_by_headings_advanced content maxChunkSize overlapSize
  else if strategy = "sentences".data then
    chunk_by_sentences content maxSentences
  else if strategy = "paragraphs".data then
    chunk_by_paragraphs content maxParagraphs
  else chunk_by_headings content

/-! ## `RAGManager` retrieval filtering (`rag_utils.py`) -/

/-- A retrieved langchain `Document`: page content plus a string-valued
metadata dictionary (modelled as an association list). -/
structure Document where
  content : List Char
  metadata : List (List Char × List Char)
deriving DecidableEq

/-- Python `dict.get(key)`: first binding of `key`, if any. -/
def alookup : List (List Char × List Char) → List Char → Option (List Char)
  | [], _ => none
  | kv :: rest, key => if kv.1 = key then some kv.2 else alookup rest key

/-- Python `metadata.get(key, '')`. -/
def metaGet (d : Document) (key : List Char) : List Char :=
  (alookup d.metadata key).getD []

/-- One filter check of `retrieve_context_by_board`: a falsy (empty) filter
is skipped; otherwise the lowered filter must be a substring of the lowered
metadata field (missing field defaults to the empty string). -/
def passOne (filt : List Char) (d : Document) (key : List Char) : Bool :=
  if filt = [] then true
  else substrOf (lowerStr filt) (lowerStr (metaGet d key))

/-- The conjunction of the board, class and subject filter checks
(the `continue`-based loop of `retrieve_context_by_board`). -/
def passFilters (bf cf sf : List Char) (d : Document) : Bool :=
  passOne bf d "board".data && passOne cf d "class".data &&
    passOne sf d "subject".data

/-- `RAGManager.retrieve_context_by_board`.  The similarity search is
abstracted as `retriever : Option (List Char → List Document)`; `none`
models an unconfigured retriever (`if not self.retriever: return []`). -/
def retrieve_context_by_board (retriever : Option (List Char → List Document))
    (query : List Char) (bf cf sf : List Char) (topK : Nat) : List Document :=
  match retriever with
  | none => []
  | some r =>
    let docs := r query
    let filtered := docs.filter (passFilters bf cf sf)
    let final := if bf ≠ [] ∨ cf ≠ [] ∨ sf ≠ [] then filtered else docs
    final.take topK

/-- The per-document filter loop of `retrieve_context_advanced_filter`:
a metadata key absent from the document is an explicit non-match. -/
def passAdvanced (filters : List (List Char × List Char)) (d : Document) :
    Bool :=
  filters.all fun kv =>
    match alookup d.metadata kv.1 with
    | some dv => substrOf (lowerStr kv.2) (lowerStr dv)
    | none => false

/-- `RAGManager.retrieve_context_advanced_filter`. -/
def retrieve_context_advanced_filter
    (retriever : Option (List Char → List Document)) (query : List Char)
    (filters : List (List Char × List Char)) (topK : Nat) : List Document :=
  match retriever with
  | none => []
  | some r => ((r query).filter (passAdvanced filters)).take topK

/-- Two chunk lists carry the same set of whitespace-delimited words
(set equality, multiplicity-insensitive). -/
def tokenSetEq (a b : List (List Char)) : Prop := ∀ t, t ∈ a ↔ t ∈ b

/-- A line with no leading or trailing whitespace. -/
def cleanLine (l : List Char) : Prop :=
  l.dropWhile isSpace = l ∧ l.reverse.dropWhile isSpace = l.reverse

/-- A well-formed heading block: a heading-marker line (as recognised by
the code's heading test) with no surrounding whitespace, followed by lines
that do not pass the heading test; no line contains a newline. -/
def validBlock (bl : List (List Char)) : Prop :=
  ∃ h body, bl = h :: body ∧ headingLine h = true ∧ cleanLine h ∧
    (∀ l ∈ body, headingLine l = false) ∧ (∀ l ∈ bl, '\n' ∉ l)

/-- A concrete document whose board metadata contains "NCERT". -/
def wBoardDoc : Document := ⟨"c1".data, [("board".data, "NCERT Books".data)]⟩

/-- A concrete document whose board metadata does not contain "NCERT". -/
def wOtherDoc : Document := ⟨"c2".data, [("board".data, "CBSE".data)]⟩

/-- A concrete retriever returning the two documents above. -/
def wRetrieve : List Char → List Document := fun _ => [wBoardDoc, wOtherDoc]

end StudyBackend

namespace StudyBackend

/-! ## Word (token) lemmas -/

theorem tokensOfList_nil : tokensOfList [] = [] := rfl

theorem tokensOfList_cons (x : List Char) (l : List (List Char)) :
    tokensOfList (x :: l) = tokens x ++ tokensOfList l := by
  simp [tokensOfList]

theorem tokensOfList_append (a b : List (List Char)) :
    tokensOfList (a ++ b) = tokensOfList a ++ tokensOfList b := by
  simp [tokensOfList]

/-- Words of a string ending in a whitespace character: the final
whitespace only closes the current word. -/
theorem tokensAux_append_ws {w : Char} (hw : isSpace w = true) :
    ∀ (a acc : List Char), tokensAux (a ++ [w]) acc = tokensAux a acc := by
  intro a
  induction a with
  | nil =>
    intro acc
    by_cases h : acc = [] <;> simp [tokensAux, hw, h]
  | cons c a ih =>
    intro acc
    by_cases hc : isSpace c = true
    · by_cases h : acc = [] <;> simp [tokensAux, hc, h, ih]
    · simp only [List.cons_append, tokensAux, hc, Bool.false_eq_true, if_false]
      exact ih _

/-- Splitting the word list at an interior whitespace character. -/
theorem tokensAux_append_sep {w : Char} (hw : isSpace w = true)
    (b : List Char) :
    ∀ (a acc : List Char),
      tokensAux (a ++ w :: b) acc = tokensAux (a ++ [w]) acc ++ tokensAux b [] := by
  intro a
  induction a with
  | nil =>
    intro acc
    by_cases h : acc = [] <;> simp [tokensAux, hw, h]
  | cons c a ih =>
    intro acc
    by_cases hc : isSpace c = true
    · by_cases h : acc = [] <;> simp [tokensAux, hc, h, ih]
    · simp only [List.cons_append, tokensAux, hc, Bool.false_eq_true, if_false]
      exact ih _

theorem tokens_sep {w : Char} (hw : isSpace w = true) (a b : List Char) :
    tokens (a ++ w :: b) = tokens a ++ tokens b := by
  rw [tokens, tokensAux_append_sep hw, tokensAux_append_ws hw]
  rfl

theorem tokens_all_space :
    ∀ s : List Char, (∀ c ∈ s, isSpace c = true) → tokens s = [] := by
  intro s
  induction s with
  | nil => intro _; rfl
  | cons c s ih =>
    intro h
    have hc : isSpace c = true := h c (List.mem_cons_self c s)
    simp only [tokens, tokensAux, hc, if_true, if_pos rfl]
    exact ih fun x hx => h x (List.mem_cons_of_mem c hx)

theorem tokens_ws_left {ws : List Char} (h : ∀ c ∈ ws, isSpace c = true)
    (b : List Char) : tokens (ws ++ b) = tokens b := by
  induction ws with
  | nil => rfl
  | cons c ws ih =>
    have hc : isSpace c = true := h c (List.mem_cons_self c ws)
    simp only [List.cons_append, tokens, tokensAux, hc, if_true, if_pos rfl]
    exact ih fun x hx => h x (List.mem_cons_of_mem c hx)

theorem tokens_ws_right {t : List Char} (h : ∀ c ∈ t, isSpace c = true)
    (a : List Char) : tokens (a ++ t) = tokens a := by
  cases t with
  | nil => rw [List.append_nil]
  | cons w t =>
    have hw : isSpace w = true := h w (List.mem_cons_self w t)
    rw [tokens_sep hw, tokens_all_space t fun x hx => h x (List.mem_cons_of_mem w hx),
      List.append_nil]

/-- Joining with an all-whitespace nonempty separator neither creates nor
destroys words. -/
theorem tokens_joinSep {w : Char} {ws : List Char} (hw : isSpace w = true)
    (hws : ∀ c ∈ ws, isSpace c = true) :
    ∀ parts : List (List Char),
      tokens (joinSep (w :: ws) parts) = tokensOfList parts := by
  intro parts
  induction parts with
  | nil => rfl
  | cons x r ih =>
    cases r with
    | nil => simp [joinSep, tokensOfList]
    | cons y r2 =>
      rw [tokensOfList_cons, joinSep]
      rw [List.append_assoc, List.cons_append, tokens_sep hw,
        tokens_ws_left hws, ih]

theorem tokens_lstrip (s : List Char) : tokens (s.dropWhile isSpace) = tokens s := by
  induction s with
  | nil => rfl
  | cons c s ih =>
    by_cases hc : isSpace c = true
    · rw [List.dropWhile_cons_of_pos hc, ih]
      simp [tokens, tokensAux, hc]
    · rw [List.dropWhile_cons_of_neg (by simp [hc])]

theorem rstrip_decomp (s : List Char) :
    s = rstrip s ++ (s.reverse.takeWhile isSpace).reverse ∧
      (∀ c ∈ (s.reverse.takeWhile isSpace).reverse, isSpace c = true) := by
  constructor
  · conv_lhs => rw [← s.reverse_reverse, ← List.takeWhile_append_dropWhile
      (p := isSpace) (l := s.reverse)]
    rw [List.reverse_append, rstrip]
  · intro c hc
    rw [List.mem_reverse] at hc
    exact List.mem_takeWhile_imp hc

theorem tokens_rstrip (s : List Char) : tokens (rstrip s) = tokens s := by
  obtain ⟨hdecomp, hws⟩ := rstrip_decomp s
  conv_rhs => rw [hdecomp]
  rw [tokens_ws_right hws]

theorem tokens_strip (s : List Char) : tokens (strip s) = tokens s := by
  rw [strip, lstrip, tokens_lstrip, tokens_rstrip]

theorem tokens_of_strip_nil {s : List Char} (h : strip s = []) :
    tokens s = [] := by
  rw [← tokens_strip, h]
  rfl

/-! ## Split/join round-trip lemmas -/

theorem splitCharAux_ne_nil (ch : Char) :
    ∀ (s acc : List Char), splitCharAux ch s acc ≠ [] := by
  intro s
  induction s with
  | nil => intro acc; simp [splitCharAux]
  | cons c s ih =>
    intro acc
    by_cases hc : c = ch <;> simp [splitCharAux, hc, ih]

theorem joinSep_cons_of_ne_nil (sep x : List Char) {r : List (List Char)}
    (hr : r ≠ []) : joinSep sep (x :: r) = x ++ sep ++ joinSep sep r := by
  cases r with
  | nil => exact absurd rfl hr
  | cons y r2 => rfl

theorem joinSep_splitCharAux (ch : Char) :
    ∀ (s acc : List Char),
      joinSep [ch] (splitCharAux ch s acc) = acc.reverse ++ s := by
  intro s
  induction s with
  | nil => intro acc; simp [splitCharAux, joinSep]
  | cons c s ih =>
    intro acc
    by_cases hc : c = ch
    · subst hc
      rw [splitCharAux, if_pos rfl,
        joinSep_cons_of_ne_nil _ _ (splitCharAux_ne_nil c s []), ih]
      simp
    · rw [splitCharAux, if_neg hc, ih]
      simp

theorem joinSep_splitChar (ch : Char) (s : List Char) :
    joinSep [ch] (splitChar ch s) = s := by
  rw [splitChar, joinSep_splitCharAux]
  rfl

theorem splitSepAux_ne_nil (a b : Char) :
    ∀ (s acc : List Char), splitSepAux a b s acc ≠ [] := by
  have key : ∀ (n : Nat) (s acc : List Char), s.length ≤ n →
      splitSepAux a b s acc ≠ [] := by
    intro n
    induction n with
    | zero =>
      intro s acc hs
      rw [List.length_eq_zero.mp (Nat.le_zero.mp hs)]
      simp [splitSepAux]
    | succ n ih =>
      intro s acc hs
      match s with
      | [] => simp [splitSepAux]
      | [c] => simp [splitSepAux]
      | c :: d :: rest =>
        by_cases hcd : c = a ∧ d = b
        · simp [splitSepAux, hcd]
        · rw [splitSepAux, if_neg hcd]
          exact ih (d :: rest) (c :: acc) (by
            simp only [List.length_cons] at hs ⊢
            omega)
  exact fun s acc => key s.length s acc le_rfl

theorem joinSep_splitSepAux (a b : Char) :
    ∀ (s acc : List Char),
      joinSep [a, b] (splitSepAux a b s acc) = acc.reverse ++ s := by
  have key : ∀ (n : Nat) (s acc : List Char), s.length ≤ n →
      joinSep [a, b] (splitSepAux a b s acc) = acc.reverse ++ s := by
    intro n
    induction n with
    | zero =>
      intro s acc hs
      rw [List.length_eq_zero.mp (Nat.le_zero.mp hs)]
      simp [splitSepAux, joinSep]
    | succ n ih =>
      intro s acc hs
      match s with
      | [] => simp [splitSepAux, joinSep]
      | [c] => simp [splitSepAux, joinSep]
      | c :: d :: rest =>
        by_cases hcd : c = a ∧ d = b
        · obtain ⟨hc, hd⟩ := hcd
          subst hc; subst hd
          rw [splitSepAux, if_pos ⟨rfl, rfl⟩,
            joinSep_cons_of_ne_nil _ _ (splitSepAux_ne_nil c d rest []),
            ih rest [] (by simp only [List.length_cons] at hs; omega)]
          simp
        · rw [splitSepAux, if_neg hcd,
            ih (d :: rest) (c :: acc) (by
              simp only [List.length_cons] at hs ⊢
              omega)]
          simp
  exact fun s acc => key s.length s acc le_rfl

theorem joinSep_splitSep2 (a b : Char) (s : List Char) :
    joinSep [a, b] (splitSep2 a b s) = s := by
  rw [splitSep2, joinSep_splitSepAux]
  rfl

/-- Reconstructing the line list: splitting a newline-join of
newline-free lines gives back those lines. -/
theorem splitCharAux_no_ch (ch : Char) :
    ∀ (l : List Char), ch ∉ l → ∀ (rest acc : List Char),
      splitCharAux ch (l ++ rest) acc = splitCharAux ch rest (l.reverse ++ acc) := by
  intro l
  induction l with
  | nil => intro _ rest acc; rfl
  | cons c l ih =>
    intro hne rest acc
    have hc : ¬c = ch := fun h => hne (h ▸ List.mem_cons_self c l)
    rw [List.cons_append, splitCharAux, if_neg hc,
      ih (fun h => hne (List.mem_cons_of_mem c h)) rest (c :: acc)]
    simp

theorem splitChar_joinSep (ch : Char) :
    ∀ ls : List (List Char), ls ≠ [] → (∀ l ∈ ls, ch ∉ l) →
      splitChar ch (joinSep [ch] ls) = ls := by
  intro ls
  induction ls with
  | nil => intro h; exact absurd rfl h
  | cons l r ih =>
    intro _ hno
    cases r with
    | nil =>
      have := splitCharAux_no_ch ch l (hno l (List.mem_cons_self l []))
        [] []
      rw [splitChar, joinSep, ← List.append_nil l, this]
      simp [splitCharAux]
    | cons l2 r2 =>
      rw [joinSep, splitChar, List.append_assoc, List.cons_append,
        splitCharAux_no_ch ch l (hno l (List.mem_cons_self l _)),
        splitCharAux, if_pos rfl]
      have := ih (by simp) fun x hx => hno x (List.mem_cons_of_mem l hx)
      rw [splitChar] at this
      rw [List.nil_append, this]
      simp

/-! ## Word preservation of the chunking strategies (C5) -/

theorem tokensOfList_flushHead (chunks cur : List (List Char)) :
    tokensOfList (flushHead chunks cur) =
      tokensOfList chunks ++ tokens (joinSep ['\n'] cur) := by
  rw [flushHead]
  by_cases hc : cur = []
  · subst hc
    simp [joinSep, tokens, tokensAux]
  · rw [if_neg hc]
    by_cases hs : strip (joinSep ['\n'] cur) = []
    · rw [if_pos hs, tokens_of_strip_nil hs, List.append_nil]
    · rw [if_neg hs, tokensOfList_append, tokensOfList_cons, tokensOfList_nil,
        List.append_nil, tokens_strip]

theorem tokensOfList_headFold :
    ∀ (ls chunks cur : List (List Char)),
      tokensOfList (headFold chunks cur ls) =
        tokensOfList chunks ++ tokens (joinSep ['\n'] cur) ++ tokensOfList ls := by
  intro ls
  induction ls with
  | nil =>
    intro chunks cur
    rw [headFold, tokensOfList_flushHead, tokensOfList_nil, List.append_nil]
  | cons l ls ih =>
    intro chunks cur
    have hnl : isSpace '\n' = true := by decide
    rw [headFold, tokensOfList_cons]
    by_cases hl : headingLine l = true
    · rw [if_pos hl, ih, tokensOfList_flushHead]
      have : tokens (joinSep ['\n'] [l]) = tokens l := rfl
      rw [this]
      simp [List.append_assoc]
    · rw [if_neg hl, ih]
      rw [tokens_joinSep hnl (by intro c hc; simp at hc) (cur ++ [l]),
        tokens_joinSep hnl (by intro c hc; simp at hc) cur,
        tokensOfList_append, tokensOfList_cons, tokensOfList_nil,
        List.append_nil]
      simp [List.append_assoc]

/-- `chunk_by_headings` preserves the word sequence of its input. -/
theorem tokens_chunk_by_headings (doc : List Char) :
    tokensOfList (chunk_by_headings doc) = tokens doc := by
  rw [chunk_by_headings]
  by_cases h0 : doc = []
  · subst h0
    rfl
  · rw [if_neg h0]
    by_cases hws : strip doc = []
    · rw [if_pos hws, tokensOfList_cons, tokensOfList_nil, List.append_nil]
    · rw [if_neg hws]
      have hnl : isSpace '\n' = true := by decide
      have hlines : tokensOfList (splitChar '\n' doc) = tokens doc := by
        rw [← @tokens_joinSep '\n' [] hnl (by simp) (splitChar '\n' doc),
          joinSep_splitChar]
      by_cases hcs : headFold [] [] (splitChar '\n' doc) = []
      · rw [if_pos hcs, tokensOfList_cons, tokensOfList_nil, List.append_nil,
          tokens_strip]
      · rw [if_neg hcs, tokensOfList_headFold, hlines]
        rfl

theorem tokensOfList_parFold (maxP : Nat) :
    ∀ (ps chunks cur : List (List Char)),
      tokensOfList (parFold maxP chunks cur ps) =
        tokensOfList chunks ++ tokensOfList cur ++ tokensOfList ps := by
  have hnl : isSpace '\n' = true := by decide
  have hjoin : ∀ cur : List (List Char),
      tokens (joinSep ['\n', '\n'] cur) = tokensOfList cur := by
    intro cur
    exact @tokens_joinSep '\n' ['\n'] hnl (by decide) cur
  intro ps
  induction ps with
  | nil =>
    intro chunks cur
    rw [parFold]
    by_cases hc : cur = []
    · subst hc
      rw [if_pos rfl]
      simp [tokensOfList_nil]
    · rw [if_neg hc, tokensOfList_append, tokensOfList_cons, tokensOfList_nil,
        List.append_nil, hjoin]
      simp [tokensOfList_nil]
  | cons p ps ih =>
    intro chunks cur
    rw [parFold, tokensOfList_cons]
    by_cases hfull : maxP ≤ (cur ++ [p]).length
    · rw [if_pos hfull, ih, tokensOfList_append, tokensOfList_cons,
        tokensOfList_nil, List.append_nil, hjoin, tokensOfList_append,
        tokensOfList_cons, tokensOfList_nil]
      simp [tokensOfList_nil, List.append_assoc]
    · rw [if_neg hfull, ih, tokensOfList_append, tokensOfList_cons,
        tokensOfList_nil, List.append_nil]
      simp [List.append_assoc]

theorem tokensOfList_strip_filter :
    ∀ l : List (List Char),
      tokensOfList ((l.map strip).filter (· ≠ [])) = tokensOfList l := by
  intro l
  induction l with
  | nil => rfl
  | cons p l ih =>
    rw [List.map_cons, tokensOfList_cons]
    by_cases hp : strip p = []
    · rw [List.filter_cons_of_neg (by simp [hp]), ih, tokens_of_strip_nil hp,
        List.nil_append]
    · rw [List.filter_cons_of_pos (by simp [hp]), tokensOfList_cons,
        tokens_strip, ih]

/-- `chunk_by_paragraphs` preserves the word sequence of its input. -/
theorem tokens_chunk_by_paragraphs (doc : List Char) (maxP : Nat) :
    tokensOfList (chunk_by_paragraphs doc maxP) = tokens doc := by
  rw [chunk_by_paragraphs]
  by_cases h0 : doc = []
  · subst h0
    rfl
  · rw [if_neg h0]
    by_cases hws : strip doc = []
    · rw [if_pos hws, tokensOfList_cons, tokensOfList_nil, List.append_nil]
    · rw [if_neg hws]
      have hnl : isSpace '\n' = true := by decide
      have hparas : tokensOfList (splitSep2 '\n' '\n' doc) = tokens doc := by
        rw [← @tokens_joinSep '\n' ['\n'] hnl (by decide)
          (splitSep2 '\n' '\n' doc), joinSep_splitSep2]
      by_cases hpe : paragraphsOf doc = []
      · rw [if_pos hpe, tokensOfList_cons, tokensOfList_nil, List.append_nil]
      · rw [if_neg hpe, tokensOfList_parFold, paragraphsOf,
          tokensOfList_strip_filter, hparas]
        rfl

/-- Claim C5 (refuted at concrete inputs): word-set preservation fails for
the `sentences` strategy (punctuation is rewritten to `.`: on `"Hi! Bye"`
the chunk word `"Hi."` is not an input word) and for the `advanced`
strategy (the character-level overlap introduces the word fragment
`"hij"` on `"abcde fghij\n\nklmno"` with `max_chunk_size = 10`,
`overlap_size = 3`). -/
theorem c5_word_set_not_preserved_counterexample :
    ¬ tokenSetEq
        (tokensOfList (chunk_educational_content "Hi! Bye".data
          "sentences".data 1000 100 5 3))
        (tokens "Hi! Bye".data) ∧
    ¬ tokenSetEq
        (tokensOfList (chunk_educational_content "abcde fghij\n\nklmno".data
          "advanced".data 10 3 5 3))
        (tokens "abcde fghij\n\nklmno".data) := by
  constructor
  · intro h
    exact absurd ((h "Hi.".data).mp (by decide)) (by decide)
  · intro h
    exact absurd ((h "hij".data).mp (by decide)) (by decide)

/-- Claim C5 (amended): the word sequence — hence the word set — across
all returned chunks equals that of the input for the `headings` and
`paragraphs` strategies; it is not preserved by the `sentences` strategy
(which rewrites `!`/`?` into `.`) nor by the `advanced` strategy (whose
character-level overlap can duplicate partial words). -/
theorem c5_word_set_preserved_headings_paragraphs
    (content : List Char) (mc ov ms mp : Nat) :
    tokensOfList (chunk_educational_content content "headings".data
        mc ov ms mp) = tokens content ∧
    tokensOfList (chunk_educational_content content "paragraphs".data
        mc ov ms mp) = tokens content := by
  constructor
  · have hd : chunk_educational_content content "headings".data mc ov ms mp =
        chunk_by_headings content := by
      rw [chunk_educational_content, if_neg (by decide), if_neg (by decide),
        if_neg (by decide)]
    rw [hd, tokens_chunk_by_headings]
  · have hd : chunk_educational_content content "paragraphs".data mc ov ms mp =
        chunk_by_paragraphs content mp := by
      rw [chunk_educational_content, if_neg (by decide), if_neg (by decide),
        if_pos rfl]
    rw [hd, tokens_chunk_by_paragraphs]

/-! ## Sentence grouping as greedy bucketing (C7) -/

/-- The sentence loop realises greedy bucketing: starting from a partial
bucket `cur` (strictly below the limit), the emitted chunks are the
rendered buckets of the remaining sentences. -/
theorem sentFold_buckets (maxS : Nat) (h1 : 1 ≤ maxS) :
    ∀ (ss : List (List Char)) (cur chunks : List (List Char)),
      cur.length < maxS →
      sentFold maxS chunks cur ss =
        chunks ++
          (if cur = [] ∧ ss = [] then ([] : List (List (List Char)))
           else (cur ++ ss.take (maxS - cur.length)) ::
             chunkList maxS (ss.drop (maxS - cur.length))).map renderBucket := by
  intro ss
  induction ss with
  | nil =>
    intro cur chunks _
    rw [sentFold]
    by_cases hc : cur = []
    · rw [if_pos hc, if_pos ⟨hc, rfl⟩]
      simp
    · rw [if_neg hc, if_neg (by simp [hc])]
      simp [chunkList]
  | cons s ss ih =>
    intro cur chunks hlt
    rw [sentFold]
    rw [if_neg (show ¬(cur = [] ∧ s :: ss = []) by simp)]
    by_cases hfull : maxS ≤ (cur ++ [s]).length
    · rw [if_pos hfull]
      have hlen : (cur ++ [s]).length = cur.length + 1 := by simp
      have hms : maxS = cur.length + 1 := by omega
      rw [ih [] (chunks ++ [renderBucket (cur ++ [s])])
        (by simp only [List.length_nil]; omega)]
      have htake1 : (s :: ss).take (maxS - cur.length) = [s] := by
        rw [show maxS - cur.length = 1 by omega]
        rfl
      have hdrop1 : (s :: ss).drop (maxS - cur.length) = ss := by
        rw [show maxS - cur.length = 1 by omega]
        rfl
      rw [htake1, hdrop1]
      obtain ⟨k, rfl⟩ : ∃ k, maxS = k + 1 := ⟨maxS - 1, by omega⟩
      cases ss with
      | nil =>
        rw [if_pos ⟨rfl, rfl⟩]
        simp [chunkList]
      | cons t ts =>
        rw [if_neg (show ¬(([] : List (List Char)) = [] ∧
          t :: ts = []) by simp)]
        have hchunk : chunkList (k + 1) (t :: ts) =
            (t :: ts).take (k + 1) :: chunkList (k + 1) (ts.drop k) := by
          rw [chunkList]
          simp
        rw [hchunk]
        simp only [List.length_nil, Nat.sub_zero, List.nil_append,
          List.drop_succ_cons, Nat.add_sub_cancel]
        simp [List.append_assoc]
    · rw [if_neg hfull]
      have hlen : (cur ++ [s]).length = cur.length + 1 := by simp
      have hlt2 : (cur ++ [s]).length < maxS := by omega
      rw [ih (cur ++ [s]) chunks hlt2]
      rw [if_neg (show ¬(cur ++ [s] = [] ∧ ss = []) by simp)]
      have hk : maxS - cur.length = (maxS - (cur ++ [s]).length) + 1 := by
        omega
      rw [hk]
      simp only [List.take_succ_cons, List.drop_succ_cons]
      simp [List.append_assoc]

/-- Claim C7: `chunk_by_sentences` splits on runs of `.`, `!`, `?`,
discards empty/whitespace-only fragments, groups consecutive sentences
greedily into buckets of at most `max_sentences`, rejoins each bucket with
`". "` plus a trailing `"."`, and emits the final partial bucket; in
particular `chunk_by_sentences("A. B. C. D. E. F.", 2)` returns
`["A. B.", "C. D.", "E. F."]`. -/
theorem c7_sentence_mode_grouping (doc : List Char) (maxS : Nat)
    (h1 : 1 ≤ maxS) (h2 : strip doc ≠ []) :
    chunk_by_sentences doc maxS =
      (chunkList maxS (sentencesOf doc)).map renderBucket ∧
    chunk_by_sentences "A. B. C. D. E. F.".data 2 =
      ["A. B.".data, "C. D.".data, "E. F.".data] := by
  constructor
  · have hne : doc ≠ [] := fun h => h2 (by rw [h]; rfl)
    rw [chunk_by_sentences, if_neg hne, if_neg h2]
    rw [sentFold_buckets maxS h1 (sentencesOf doc) [] []
      (by simp only [List.length_nil]; omega)]
    cases hs : sentencesOf doc with
    | nil =>
      rw [if_pos ⟨rfl, rfl⟩]
      simp [chunkList]
    | cons x xs =>
      rw [if_neg (show ¬(([] : List (List Char)) = [] ∧ x :: xs = []) by simp)]
      obtain ⟨k, rfl⟩ : ∃ k, maxS = k + 1 := ⟨maxS - 1, by omega⟩
      have hchunk : chunkList (k + 1) (x :: xs) =
          (x :: xs).take (k + 1) :: chunkList (k + 1) (xs.drop k) := by
        rw [chunkList]
        simp
      rw [hchunk]
      simp [List.drop_succ_cons]
  · decide

/-- Witness for C7 at the specification's Scenario C input. -/
theorem c7_sentence_mode_grouping_witness :
    chunk_by_sentences "A. B. C. D. E. F.".data 2 =
      (chunkList 2 (sentencesOf "A. B. C. D. E. F.".data)).map renderBucket :=
  (c7_sentence_mode_grouping "A. B. C. D. E. F.".data 2 (by decide)
    (by decide)).1

/-! ## Overlap seeding in `_split_large_chunk` (C4) -/

/-- The word loop only ever appends to the emitted list. -/
theorem wordFold_emits_append (M : Nat) :
    ∀ (ws : List (List Char)) (subs : List (List Char)) (temp : List Char),
      wordFold M subs temp ws =
        (subs ++ (wordFold M [] temp ws).1, (wordFold M [] temp ws).2) := by
  intro ws
  induction ws with
  | nil => intro subs temp; simp [wordFold]
  | cons w ws ih =>
    intro subs temp
    rw [wordFold, wordFold]
    by_cases hbig : M < temp.length + w.length + 1
    · rw [if_pos hbig, if_pos hbig]
      by_cases ht : temp = []
      · rw [if_pos ht, if_pos ht, ih (subs ++ [w]), ih ([] ++ [w])]
        simp
      · rw [if_neg ht, if_neg ht, ih (subs ++ [strip temp]),
          ih ([] ++ [strip temp])]
        simp
    · rw [if_neg hbig, if_neg hbig, ih subs, ih []]

/-- The paragraph loop only ever appends to the emitted list. -/
theorem paraFold_emits_append (M O : Nat) :
    ∀ (ps : List (List Char)) (subs : List (List Char)) (cur : List Char),
      paraFold M O subs cur ps = subs ++ paraFold M O [] cur ps := by
  intro ps
  induction ps with
  | nil =>
    intro subs cur
    rw [paraFold, paraFold]
    by_cases hc : cur = [] <;> simp [hc]
  | cons p ps ih =>
    intro subs cur
    rw [paraFold, paraFold]
    by_cases hbig : M < cur.length + p.length + 2
    · rw [if_pos hbig, if_pos hbig]
      by_cases hc : cur = []
      · rw [if_pos hc, if_pos hc]
        by_cases hp : M < p.length
        · rw [if_pos hp, if_pos hp]
          rw [wordFold_emits_append M (splitChar ' ' p) subs [],
            wordFold_emits_append M (splitChar ' ' p) [] []]
          simp only [List.nil_append]
          rw [ih (subs ++ (wordFold M [] [] (splitChar ' ' p)).1),
            ih ((wordFold M [] [] (splitChar ' ' p)).1)]
          simp
        · rw [if_neg hp, if_neg hp, ih subs, ih []]
      · rw [if_neg hc, if_neg hc, ih (subs ++ [strip cur]),
          ih ([] ++ [strip cur])]
        simp
    · rw [if_neg hbig, if_neg hbig, ih subs, ih []]

/-- From a nonempty buffer the next emitted sub-chunk is the strip of that
buffer possibly extended at its end (material is only ever appended to the
buffer before it is flushed). -/
theorem paraFold_next_chunk (M O : Nat) :
    ∀ (ps : List (List Char)) (cur : List Char), cur ≠ [] →
      ∃ t rest, paraFold M O [] cur ps = strip (cur ++ t) :: rest := by
  intro ps
  induction ps with
  | nil =>
    intro cur hcur
    refine ⟨[], [], ?_⟩
    rw [paraFold, if_neg hcur, List.append_nil]
    rfl
  | cons p ps ih =>
    intro cur hcur
    rw [paraFold]
    by_cases hbig : M < cur.length + p.length + 2
    · rw [if_pos hbig, if_neg hcur, paraFold_emits_append]
      exact ⟨[], _, by rw [List.append_nil]; rfl⟩
    · rw [if_neg hbig, if_neg hcur]
      obtain ⟨t, rest, hrec⟩ := ih (cur ++ ['\n', '\n'] ++ p) (by simp)
      refine ⟨['\n', '\n'] ++ p ++ t, rest, ?_⟩
      rw [hrec]
      simp [List.append_assoc]

/-- Claim C4 (refuted at a concrete input): on the heading-free input
`"abcdefg \n\nxyzw"` with `max_chunk_size = 10`, `overlap_size = 3`, a
paragraph-level split occurs with buffer `"abcdefg "` (length 8 > 3), yet
the last 3 characters of sub-chunk 1 (`"efg"`, after the flushed buffer is
stripped) are not a prefix — nor even a substring — of sub-chunk 2
`"fg \n\nxyzw"`: the overlap is taken from the unstripped buffer and the
seeded buffer is stripped again on flush. -/
theorem c4_overlap_not_prefix_counterexample :
    chunk_by_headings_advanced "abcdefg \n\nxyzw".data 10 3 =
      ["abcdefg".data, "fg \n\nxyzw".data] ∧
    leadsWith ("abcdefg".data.drop ("abcdefg".data.length - 3))
      "fg \n\nxyzw".data = false ∧
    substrOf ("abcdefg".data.drop ("abcdefg".data.length - 3))
      "fg \n\nxyzw".data = false := by
  decide

/-- Claim C4 (amended): when a paragraph-level flush occurs with
`overlap_size = O > 0` and the buffer longer than `O`, sub-chunk `i` is the
strip of the buffer, and sub-chunk `i+1` is the strip of the last `O`
characters of the *unstripped* buffer, joined by a blank line to the next
paragraph and possibly extended by later paragraphs; the last `O`
characters of sub-chunk `i` therefore lead sub-chunk `i+1` only insofar as
stripping alters neither of them. -/
theorem c4_overlap_seeding_amended (M O : Nat) (subs : List (List Char))
    (cur p : List Char) (ps : List (List Char)) (hcur : cur ≠ [])
    (hbig : M < cur.length + p.length + 2) (hO : 0 < O)
    (hlen : O < cur.length) :
    ∃ t rest, paraFold M O subs cur (p :: ps) =
      subs ++ strip cur ::
        strip (cur.drop (cur.length - O) ++ ['\n', '\n'] ++ p ++ t) :: rest := by
  rw [paraFold, if_pos hbig, if_neg hcur, if_pos ⟨hO, hlen⟩,
    paraFold_emits_append]
  obtain ⟨t, rest, hrec⟩ := paraFold_next_chunk M O ps
    (cur.drop (cur.length - O) ++ ['\n', '\n'] ++ p) (by simp)
  refine ⟨t, rest, ?_⟩
  rw [hrec]
  simp [List.append_assoc]

/-- Witness for the amended C4 at the counterexample's own flush state. -/
theorem c4_overlap_seeding_amended_witness :
    ∃ t rest, paraFold 10 3 [] "abcdefg ".data ["xyzw".data] =
      [] ++ strip "abcdefg ".data ::
        strip ("abcdefg ".data.drop ("abcdefg ".data.length - 3) ++
          ['\n', '\n'] ++ "xyzw".data ++ t) :: rest :=
  c4_overlap_seeding_amended 10 3 [] "abcdefg ".data "xyzw".data []
    (by decide) (by decide) (by decide) (by decide)

/-! ## Heading-block structure of `chunk_by_headings` (C6) -/

theorem dropWhile_length_le (p : Char → Bool) :
    ∀ l : List Char, (l.dropWhile p).length ≤ l.length := by
  intro l
  induction l with
  | nil => exact le_rfl
  | cons c l ih =>
    by_cases hc : p c = true
    · rw [List.dropWhile_cons_of_pos hc]
      exact ih.trans (Nat.le_succ _)
    · rw [List.dropWhile_cons_of_neg (by simp [hc])]

/-- A clean nonempty line starts with a non-whitespace character. -/
theorem cleanLine_head {h : List Char} (hc : cleanLine h) {c : Char}
    {h' : List Char} (he : h = c :: h') : isSpace c = false := by
  by_contra hsp
  have hsp' : isSpace c = true := by
    cases hx : isSpace c
    · exact absurd hx hsp
    · rfl
  have := hc.1
  rw [he, List.dropWhile_cons_of_pos hsp'] at this
  have hlen := congrArg List.length this
  have hle := dropWhile_length_le isSpace h'
  simp only [List.length_cons] at hlen
  omega

/-- A clean line is its own strip. -/
theorem strip_cleanLine {h : List Char} (hc : cleanLine h) : strip h = h := by
  rw [strip, rstrip, hc.2, List.reverse_reverse, lstrip, hc.1]

/-- Stripping a string that starts with a clean nonempty line only strips
at the far end: the line survives as a prefix. -/
theorem strip_append_clean {h : List Char} (hcl : cleanLine h)
    (hne : h ≠ []) (t : List Char) : strip (h ++ t) = h ++ rstrip t := by
  have hr : rstrip (h ++ t) = h ++ rstrip t := by
    rw [rstrip, List.reverse_append, List.dropWhile_append]
    by_cases he : (t.reverse.dropWhile isSpace).isEmpty = true
    · rw [if_pos he, hcl.2, List.reverse_reverse, rstrip,
        List.isEmpty_iff.mp he]
      simp
    · rw [if_neg he, List.reverse_append, List.reverse_reverse, rstrip]
  rw [strip, hr, lstrip]
  cases hh : h with
  | nil => exact absurd hh hne
  | cons c h' =>
    have hsp : isSpace c = false := cleanLine_head hcl hh
    rw [List.cons_append, List.dropWhile_cons_of_neg (by simp [hsp])]

/-- The heading of a block survives as a prefix of the block's chunk. -/
theorem strip_joinSep_block {h : List Char} (hcl : cleanLine h)
    (hne : h ≠ []) (body : List (List Char)) :
    ∃ t, strip (joinSep ['\n'] (h :: body)) = h ++ t := by
  cases body with
  | nil =>
    exact ⟨[], by rw [joinSep, strip_cleanLine hcl, List.append_nil]⟩
  | cons b r =>
    rw [joinSep_cons_of_ne_nil _ _ (by simp), List.append_assoc]
    exact ⟨rstrip (['\n'] ++ joinSep ['\n'] (b :: r)),
      strip_append_clean hcl hne _⟩

/-- Heading lines are nonempty. -/
theorem headingLine_ne_nil {h : List Char} (hh : headingLine h = true) :
    h ≠ [] := by
  intro he
  subst he
  exact absurd hh (by decide)

/-- Processing non-heading lines only extends the accumulation. -/
theorem headFold_body :
    ∀ (body : List (List Char)), (∀ l ∈ body, headingLine l = false) →
      ∀ (chunks cur tail : List (List Char)),
        headFold chunks cur (body ++ tail) = headFold chunks (cur ++ body) tail := by
  intro body
  induction body with
  | nil => intro _ chunks cur tail; rw [List.nil_append, List.append_nil]
  | cons b body ih =>
    intro hb chunks cur tail
    rw [List.cons_append, headFold,
      if_neg (by rw [hb b (List.mem_cons_self b body)]; simp),
      ih (fun l hl => hb l (List.mem_cons_of_mem b hl)) chunks (cur ++ [b]) tail]
    simp

/-- Flushing a valid in-progress block appends exactly its chunk. -/
theorem flushHead_valid {h : List Char} (hh : headingLine h = true)
    (hcl : cleanLine h) (body chunks : List (List Char)) :
    flushHead chunks (h :: body) =
      chunks ++ [strip (joinSep ['\n'] (h :: body))] := by
  obtain ⟨t, ht⟩ := strip_joinSep_block hcl (headingLine_ne_nil hh) body
  rw [flushHead, if_neg (by simp), if_neg (by
    rw [ht]
    intro hcontra
    exact (headingLine_ne_nil hh) (List.append_eq_nil.mp hcontra).1)]

/-- The main block lemma: from an in-progress valid block, processing the
lines of further valid blocks emits one chunk per block. -/
theorem headFold_blocks :
    ∀ (blocks : List (List (List Char))), (∀ bl ∈ blocks, validBlock bl) →
      ∀ (h : List Char) (body chunks : List (List Char)),
        headingLine h = true → cleanLine h →
        (∀ l ∈ body, headingLine l = false) →
        headFold chunks (h :: body) blocks.flatten =
          chunks ++ [strip (joinSep ['\n'] (h :: body))] ++
            blocks.map (fun bl => strip (joinSep ['\n'] bl)) := by
  intro blocks
  induction blocks with
  | nil =>
    intro _ h body chunks hh hcl _
    rw [List.flatten_nil, headFold, flushHead_valid hh hcl]
    simp
  | cons B rest ih =>
    intro hval h body chunks hh hcl hbody
    obtain ⟨hB, bodyB, hBeq, hhB, hclB, hbodyB, _⟩ :=
      hval B (List.mem_cons_self B rest)
    have hrest : ∀ bl ∈ rest, validBlock bl :=
      fun bl hbl => hval bl (List.mem_cons_of_mem B hbl)
    rw [hBeq, List.flatten_cons, List.cons_append, headFold, if_pos hhB,
      flushHead_valid hh hcl, headFold_body bodyB hbodyB,
      List.singleton_append, ih hrest hB bodyB _ hhB hclB hbodyB]
    simp [List.append_assoc]

/-- Claim C6 (refuted at a concrete input): `"x\n# A\ny"` contains exactly
one valid heading line (level 1) and no blank runs, yet `chunk_by_headings`
returns two chunks, the first of which (`"x"`, the pre-heading preamble)
does not start with a heading line. -/
theorem c6_preamble_counterexample :
    chunk_by_headings "x\n# A\ny".data = ["x".data, "# A\ny".data] ∧
    ((splitChar '\n' "x\n# A\ny".data).filter headingLine).length = 1 ∧
    headingLine "x".data = false := by
  decide

/-- Claim C6 (amended): for text that is a newline-join of N well-formed
heading blocks — each a heading-marker line (the code's test: trimmed form
begins with `#`, length > 1; any heading level) with no surrounding
whitespace, followed by non-heading newline-free lines — `chunk_by_headings`
returns exactly N chunks, the i-th being the stripped join of block i and
starting with block i's heading line verbatim; in particular Scenario A
holds. -/
theorem c6_heading_block_structure (blocks : List (List (List Char)))
    (hne : blocks ≠ []) (hval : ∀ bl ∈ blocks, validBlock bl) :
    chunk_by_headings (joinSep ['\n'] blocks.flatten) =
      blocks.map (fun bl => strip (joinSep ['\n'] bl)) ∧
    (chunk_by_headings (joinSep ['\n'] blocks.flatten)).length =
      blocks.length ∧
    (∀ bl h body, bl ∈ blocks → bl = h :: body →
      ∃ t, strip (joinSep ['\n'] bl) = h ++ t) ∧
    chunk_by_headings "# Ch2\nintro text\n## Sub\nmore text".data =
      ["# Ch2\nintro text".data, "## Sub\nmore text".data] := by
  have hmain : chunk_by_headings (joinSep ['\n'] blocks.flatten) =
      blocks.map (fun bl => strip (joinSep ['\n'] bl)) := by
    cases blocks with
    | nil => exact absurd rfl hne
    | cons B1 rest =>
      obtain ⟨h1, body1, hB1, hh1, hcl1, hbody1, hnl1⟩ :=
        hval B1 (List.mem_cons_self B1 rest)
      have hrest : ∀ bl ∈ rest, validBlock bl :=
        fun bl hbl => hval bl (List.mem_cons_of_mem B1 hbl)
      have h1ne : h1 ≠ [] := headingLine_ne_nil hh1
      have hlines : (B1 :: rest).flatten = h1 :: (body1 ++ rest.flatten) := by
        rw [hB1, List.flatten_cons, List.cons_append]
      obtain ⟨t0, ht0⟩ : ∃ t0,
          joinSep ['\n'] ((B1 :: rest).flatten) = h1 ++ t0 := by
        rw [hlines]
        cases hbr : body1 ++ rest.flatten with
        | nil => exact ⟨[], by rw [joinSep, List.append_nil]⟩
        | cons x xs =>
          rw [joinSep_cons_of_ne_nil _ _ (by simp), List.append_assoc]
          exact ⟨_, rfl⟩
      have hdocne : joinSep ['\n'] ((B1 :: rest).flatten) ≠ [] := by
        rw [ht0]
        intro hcontra
        exact h1ne (List.append_eq_nil.mp hcontra).1
      have hstripne : strip (joinSep ['\n'] ((B1 :: rest).flatten)) ≠ [] := by
        rw [ht0, strip_append_clean hcl1 h1ne]
        intro hcontra
        exact h1ne (List.append_eq_nil.mp hcontra).1
      have hsplit : splitChar '\n' (joinSep ['\n'] ((B1 :: rest).flatten)) =
          (B1 :: rest).flatten := by
        apply splitChar_joinSep
        · rw [hlines]
          simp
        · intro l hl
          obtain ⟨bl, hbl, hlbl⟩ := List.mem_flatten.mp hl
          obtain ⟨_, _, _, _, _, _, hnl⟩ := hval bl hbl
          exact hnl l hlbl
      have hfold : headFold [] [] ((B1 :: rest).flatten) =
          (B1 :: rest).map (fun bl => strip (joinSep ['\n'] bl)) := by
        rw [hlines, headFold, if_pos hh1]
        have hflush : flushHead [] [] = [] := by rw [flushHead, if_pos rfl]
        rw [hflush, headFold_body body1 hbody1, List.singleton_append,
          headFold_blocks rest hrest h1 body1 [] hh1 hcl1 hbody1,
          List.map_cons, hB1]
        simp
      rw [chunk_by_headings, if_neg hdocne, if_neg hstripne, hsplit, hfold]
      rw [if_neg (by simp)]
  refine ⟨hmain, ?_, ?_, by decide⟩
  · rw [hmain, List.length_map]
  · intro bl h body hbl hcons
    obtain ⟨h', body', heq, hh', hcl', _, _⟩ := hval bl hbl
    rw [hcons] at heq
    injection heq with e1 e2
    subst e1
    subst e2
    rw [hcons]
    exact strip_joinSep_block hcl' (headingLine_ne_nil hh') body

/-- Witness for the amended C6 on the two blocks of Scenario A. -/
theorem c6_heading_block_structure_witness :
    chunk_by_headings (joinSep ['\n']
        [["# Ch2".data, "intro text".data],
         ["## Sub".data, "more text".data]].flatten) =
      [["# Ch2".data, "intro text".data],
       ["## Sub".data, "more text".data]].map
        (fun bl => strip (joinSep ['\n'] bl)) :=
  (c6_heading_block_structure
    [["# Ch2".data, "intro text".data], ["## Sub".data, "more text".data]]
    (by simp)
    (by
      intro bl hbl
      simp only [List.mem_cons, List.not_mem_nil, or_false] at hbl
      rcases hbl with rfl | rfl
      · exact ⟨"# Ch2".data, ["intro text".data], rfl, by decide,
          ⟨by decide, by decide⟩, by decide, by decide⟩
      · exact ⟨"## Sub".data, ["more text".data], rfl, by decide,
          ⟨by decide, by decide⟩, by decide, by decide⟩)).1

/-! ## Theorems: retrieval filtering (C3, C8, C9) -/

/-- Claim C3: `retrieve_context_by_board` returns only candidates whose
metadata field case-insensitively contains every present filter value,
keeps the similarity-search's relative ordering (the result is a sublist
of the retrieved candidates), truncates to at most `top_k` elements (it is
the first `top_k` of the filtered list), and with zero present filters it
returns the unfiltered first `top_k` candidates. -/
theorem c3_filter_conjunction_order_topk
    (r : List Char → List Document) (q bf cf sf : List Char) (k : Nat)
    (res : List Document)
    (hres : res = retrieve_context_by_board (some r) q bf cf sf k) :
    (∀ d ∈ res,
      (bf ≠ [] → substrOf (lowerStr bf) (lowerStr (metaGet d "board".data)) = true) ∧
      (cf ≠ [] → substrOf (lowerStr cf) (lowerStr (metaGet d "class".data)) = true) ∧
      (sf ≠ [] → substrOf (lowerStr sf) (lowerStr (metaGet d "subject".data)) = true)) ∧
    res.Sublist (r q) ∧
    res.length ≤ k ∧
    res = ((r q).filter (passFilters bf cf sf)).take k ∧
    (bf = [] → cf = [] → sf = [] → res = (r q).take k) := by
  have hpass : ∀ d : Document, passFilters bf cf sf d = true →
      (bf ≠ [] → substrOf (lowerStr bf) (lowerStr (metaGet d "board".data)) = true) ∧
      (cf ≠ [] → substrOf (lowerStr cf) (lowerStr (metaGet d "class".data)) = true) ∧
      (sf ≠ [] → substrOf (lowerStr sf) (lowerStr (metaGet d "subject".data)) = true) := by
    intro d hd
    simp only [passFilters, Bool.and_eq_true] at hd
    obtain ⟨⟨h1, h2⟩, h3⟩ := hd
    refine ⟨fun hb => ?_, fun hc => ?_, fun hs => ?_⟩
    · simpa only [passOne, if_neg hb] using h1
    · simpa only [passOne, if_neg hc] using h2
    · simpa only [passOne, if_neg hs] using h3
  have hfil : res = ((r q).filter (passFilters bf cf sf)).take k := by
    subst hres
    simp only [retrieve_context_by_board]
    by_cases hp : bf ≠ [] ∨ cf ≠ [] ∨ sf ≠ []
    · rw [if_pos hp]
    · rw [if_neg hp]
      push_neg at hp
      obtain ⟨hb, hc, hs⟩ := hp
      subst hb; subst hc; subst hs
      have heq : (r q).filter (passFilters [] [] []) = r q := by
        apply List.filter_eq_self.mpr
        intro a _
        simp [passFilters, passOne]
      rw [heq]
  refine ⟨?_, ?_, ?_, hfil, ?_⟩
  · intro d hd
    rw [hfil] at hd
    exact hpass d (List.of_mem_filter (List.take_subset _ _ hd))
  · rw [hfil]
    exact (List.take_sublist _ _).trans (List.filter_sublist _)
  · rw [hfil]
    exact List.length_take_le _ _
  · intro hb hc hs
    subst hres
    simp [retrieve_context_by_board, hb, hc, hs]

/-- Witness for C3 at a concrete retriever, filters and `top_k`: the board
filter "NCERT" keeps exactly the matching document. -/
theorem c3_filter_conjunction_order_topk_witness :
    [wBoardDoc] =
      ((wRetrieve "q".data).filter (passFilters "NCERT".data [] [])).take 5 :=
  (c3_filter_conjunction_order_topk wRetrieve "q".data "NCERT".data [] [] 5
    [wBoardDoc] (by decide)).2.2.2.1

/-- Claim C8: with no retriever configured, `retrieve_context_by_board`
returns the empty list for every query, filter combination and `top_k`. -/
theorem c8_no_retriever_returns_empty (q bf cf sf : List Char) (k : Nat) :
    retrieve_context_by_board none q bf cf sf k = [] := rfl

/-- Claim C9: a candidate whose metadata lacks the field of a present
filter is always excluded — `retrieve_context_by_board` substitutes the
empty string for a missing field (which no non-empty filter matches), and
`retrieve_context_advanced_filter` treats an absent filter key as a
non-match. -/
theorem c9_missing_metadata_field_excluded :
    (∀ (r : List Char → List Document) (q bf cf sf : List Char) (k : Nat)
        (d : Document),
      bf ≠ [] → alookup d.metadata "board".data = none →
      d ∉ retrieve_context_by_board (some r) q bf cf sf k) ∧
    (∀ (r : List Char → List Document) (q bf cf sf : List Char) (k : Nat)
        (d : Document),
      cf ≠ [] → alookup d.metadata "class".data = none →
      d ∉ retrieve_context_by_board (some r) q bf cf sf k) ∧
    (∀ (r : List Char → List Document) (q bf cf sf : List Char) (k : Nat)
        (d : Document),
      sf ≠ [] → alookup d.metadata "subject".data = none →
      d ∉ retrieve_context_by_board (some r) q bf cf sf k) ∧
    (∀ (r : List Char → List Document) (q : List Char)
        (filters : List (List Char × List Char)) (k : Nat) (d : Document)
        (kv : List Char × List Char),
      kv ∈ filters → alookup d.metadata kv.1 = none →
      d ∉ retrieve_context_advanced_filter (some r) q filters k) := by
  have hsub : ∀ n : List Char, substrOf n [] = true → n = [] := by
    intro n hn
    simpa [substrOf] using hn
  have hboard : ∀ (r : List Char → List Document) (q bf cf sf : List Char)
      (k : Nat) (d : Document) (key : List Char),
      alookup d.metadata key = none →
      d ∈ retrieve_context_by_board (some r) q bf cf sf k →
      (bf ≠ [] ∨ cf ≠ [] ∨ sf ≠ []) →
      passFilters bf cf sf d = true := by
    intro r q bf cf sf k d key _ hd hpres
    simp only [retrieve_context_by_board, if_pos hpres] at hd
    exact List.of_mem_filter (List.take_subset _ _ hd)
  refine ⟨?_, ?_, ?_, ?_⟩
  · intro r q bf cf sf k d hbf hnone hd
    have hp := hboard r q bf cf sf k d _ hnone hd (Or.inl hbf)
    simp only [passFilters, Bool.and_eq_true] at hp
    have h1 := hp.1.1
    rw [passOne, if_neg hbf, metaGet, hnone] at h1
    exact hbf (by simpa [lowerStr] using hsub _ h1)
  · intro r q bf cf sf k d hcf hnone hd
    have hp := hboard r q bf cf sf k d _ hnone hd (Or.inr (Or.inl hcf))
    simp only [passFilters, Bool.and_eq_true] at hp
    have h1 := hp.1.2
    rw [passOne, if_neg hcf, metaGet, hnone] at h1
    exact hcf (by simpa [lowerStr] using hsub _ h1)
  · intro r q bf cf sf k d hsf hnone hd
    have hp := hboard r q bf cf sf k d _ hnone hd (Or.inr (Or.inr hsf))
    simp only [passFilters, Bool.and_eq_true] at hp
    have h1 := hp.2
    rw [passOne, if_neg hsf, metaGet, hnone] at h1
    exact hsf (by simpa [lowerStr] using hsub _ h1)
  · intro r q filters k d kv hkv hnone hd
    simp only [retrieve_context_advanced_filter] at hd
    have hp := List.of_mem_filter (List.take_subset _ _ hd)
    rw [passAdvanced, List.all_eq_true] at hp
    have := hp kv hkv
    rw [hnone] at this
    exact Bool.false_ne_true this

/-- Witness for C9: a document with no `board` metadata is excluded under
a present board filter. -/
theorem c9_missing_metadata_field_excluded_witness :
    (⟨"x".data, []⟩ : Document) ∉
      retrieve_context_by_board (some fun _ => [⟨"x".data, []⟩])
        "q".data "b".data [] [] 3 :=
  c9_missing_metadata_field_excluded.1 _ "q".data "b".data [] [] 3 _
    (by decide) rfl

/-! ## Theorems: size bound and heading level (C1, C2) -/

/-- Claim C1 (refuted at a concrete input — the code violates its stated
size bound): on the no-heading input `"aaaaaaaaa\n\nbbbbbbbbb"` with
`max_chunk_size = 10` and `overlap_size = 5`, the overlap-seeded second
chunk `"aaaaa\n\nbbbbbbbbb"` has 16 characters (> 10) yet consists of two
whitespace-separated words, so it is not a single atomic word/line. -/
theorem c1_overlap_seeded_chunk_exceeds_bound :
    chunk_by_headings_advanced "aaaaaaaaa\n\nbbbbbbbbb".data 10 5 =
      ["aaaaaaaaa".data, "aaaaa\n\nbbbbbbbbb".data] ∧
    10 < "aaaaa\n\nbbbbbbbbb".data.length ∧
    (tokens "aaaaa\n\nbbbbbbbbb".data).length = 2 := by
  decide

/-- Claim C2 (refuted at a concrete input — the code splits on heading
level ≥ 3): `"a\n### b"` is split at the `###` line, although the claim
(and the repository's own unit test `test_complex_educational_content`)
says level ≥ 3 markers never cause a split. -/
theorem c2_level3_marker_causes_split :
    chunk_by_headings "a\n### b".data = ["a".data, "### b".data] ∧
    leadsWith "###".data (strip "### b".data) = true := by
  decide

/-! ## Theorems: degenerate inputs (C10) -/

/-- Claim C10: for every non-empty whitespace-only input and all size
parameters, `chunk_by_headings_advanced` returns the input verbatim as a
single-element list; the size cap is not applied to degenerate inputs. -/
theorem c10_whitespace_input_returned_verbatim (doc : List Char)
    (maxSize overlap : Nat) (hne : doc ≠ []) (hws : strip doc = []) :
    chunk_by_headings_advanced doc maxSize overlap = [doc] := by
  rw [chunk_by_headings_advanced, if_neg hne, if_pos hws]

/-- Witness for C10: three spaces with `max_chunk_size = 1` come back as a
single verbatim chunk of length 3 > 1. -/
theorem c10_whitespace_input_returned_verbatim_witness :
    chunk_by_headings_advanced "   ".data 1 0 = ["   ".data] ∧
    1 < "   ".data.length :=
  ⟨c10_whitespace_input_returned_verbatim "   ".data 1 0 (by decide)
    (by decide), by decide⟩

end StudyBackend
